import Mathlib

/-!
# Verification of the invoice extraction-and-review workflow

Shallow embedding of `src/invoice_extractor.py`: the field flattener
(`flatten_json`), the durable store of verified invoices
(`load_verified_invoices` / `save_verified_invoices` and the mutations
performed by the review screens), the per-page extraction step of
`render_main_page`, the pending-review filter of
`render_procurement_review`, and the approval step of
`render_finance_approval`.  Engine-level operations that exist only in
the design document (verify/approve with named errors, the stage state
machine) are modelled from the spec and marked as such.
-/

set_option autoImplicit false

namespace InvoiceExtractor

/-- A Python JSON-like value as the extraction result uses it: scalar
strings, lists, and objects with insertion-ordered string keys. -/
inductive Json where
  | str : String → Json
  | arr : List Json → Json
  | obj : List (String × Json) → Json
deriving Repr

/-- Python `f"{parent_key}{sep}{k}" if parent_key else k` with the fixed
separator `" > "` of `flatten_json`. -/
def pyJoin (parent k : String) : String :=
  if parent = "" then k else parent ++ " > " ++ k

mutual

/-- The loop of `flatten_json` over `d.items()` (src lines 81-92): a dict value
recurses with the joined key, a list value iterates with indexed keys, any
other value is emitted as a `(path, value)` pair. -/
def flattenObj : List (String × Json) → String → List (String × Json)
  | [], _ => []
  | (k, v) :: rest, parent =>
    let new_key := pyJoin parent k
    (match v with
     | .obj gs => flattenObj gs new_key
     | .arr xs => flattenArr xs new_key 0
     | other => [(new_key, other)]) ++ flattenObj rest parent

/-- The inner `for idx, item in enumerate(v)` loop of `flatten_json`
(src lines 86-90): dict items recurse under `key[idx]`, every other item
(scalar or nested list) is appended whole as `(key[idx], item)`. -/
def flattenArr : List Json → String → Nat → List (String × Json)
  | [], _, _ => []
  | item :: rest, new_key, idx =>
    (match item with
     | .obj gs => flattenObj gs (new_key ++ "[" ++ toString idx ++ "]")
     | other => [(new_key ++ "[" ++ toString idx ++ "]", other)]) ++
    flattenArr rest new_key (idx + 1)

end

/-- One step of Python `dict(items)` construction: assigning to an existing
key overwrites its value in place, a new key is appended. -/
def dictInsert (acc : List (String × Json)) (kv : String × Json) :
    List (String × Json) :=
  if acc.any (fun p => p.1 == kv.1) then
    acc.map (fun p => if p.1 == kv.1 then (p.1, kv.2) else p)
  else
    acc ++ [kv]

/-- Python `dict(items)`: first-insertion key order, last-assigned value. -/
def pyDict (items : List (String × Json)) : List (String × Json) :=
  items.foldl dictInsert []

/-- Top-level `flatten_json(d)` as called by the app (src line 93): the flattened
pairs of the top-level dict, collapsed through `dict(items)`. -/
def flatten_json (fs : List (String × Json)) : List (String × Json) :=
  pyDict (flattenObj fs "")

/-- Retrieval of a flattened value by its path (`dict` lookup on the
result of `flatten_json`). -/
def lookupPath (path : String) (d : List (String × Json)) : Option Json :=
  (d.find? (fun pr => pr.1 == path)).map (fun pr => pr.2)

/-- Contribution of an element of an ordered sequence rooted at `path`,
following the spec's words: index `i` contributes the path `path[i]`,
recursing when the element is itself a nested mapping (the spec's
`Structured` variant), terminating otherwise. -/
def seqContrib (path : String) (i : Nat) (item : Json) : List (String × Json) :=
  match item with
  | .obj gs => flattenObj gs (path ++ "[" ++ toString i ++ "]")
  | other => [(path ++ "[" ++ toString i ++ "]", other)]

/-- Contribution of one value rooted at `path`, following the spec's
words: nested mappings recurse under their path, ordered sequences
contribute their elements at `path[i]` for each index `i` (via
`List.enum`), scalars terminate as a `(path, value)` pair. -/
def valContrib (v : Json) (path : String) : List (String × Json) :=
  match v with
  | .obj gs => flattenObj gs path
  | .arr xs => xs.enum.flatMap (fun p => seqContrib path p.1 p.2)
  | other => [(path, other)]

mutual

/-- Replace every scalar value of a JSON value by the empty string,
keeping the structure (keys, indices, nesting) intact. -/
def eraseVal : Json → Json
  | .str _ => .str ""
  | .arr xs => .arr (eraseArrVals xs)
  | .obj fs => .obj (eraseObjVals fs)

/-- Pointwise `eraseVal` over a list of values. -/
def eraseArrVals : List Json → List Json
  | [] => []
  | x :: rest => eraseVal x :: eraseArrVals rest

/-- Pointwise `eraseVal` over the values of an object. -/
def eraseObjVals : List (String × Json) → List (String × Json)
  | [] => []
  | (k, v) :: rest => (k, eraseVal v) :: eraseObjVals rest

end

/-! ## The session records and the durable store -/

/-- One entry of `st.session_state.data` (src lines 127-133): a per-page
record with the source file name, 1-based page number, a status string
(`"Extracting..."`, `"Done"` or `"Failed"`), the compressed page image,
and the extraction result. -/
structure Entry where
  file : String
  page : Nat
  status : String
  image : Option (List Nat)
  json : Option Json
deriving Repr

/-- One element of the `verified_invoices.json` list (src lines 239-243):
`{"file": ..., "page": ..., "fields": ...}` with the human-edited
flattened fields. -/
structure VerifiedInvoice where
  file : String
  page : Nat
  fields : List (String × String)
deriving Repr

/-- Function `save_verified_invoices` (src lines 14-16): serializes the whole list
to the backing file.  The backing medium is modelled as
`Option (List VerifiedInvoice)`, `none` meaning the file does not exist. -/
def save_verified_invoices (vs : List VerifiedInvoice) :
    Option (List VerifiedInvoice) :=
  some vs

/-- Function `load_verified_invoices` (src lines 18-23): returns the parsed list
when the backing file exists and `[]` when it does not. -/
def load_verified_invoices : Option (List VerifiedInvoice) → List VerifiedInvoice
  | some vs => vs
  | none => []

/-- Whether a store entry carries the key `(file, page)`. -/
def keyMatches (v : VerifiedInvoice) (file : String) (page : Nat) : Bool :=
  v.file == file && v.page == page

/-- Python `(row["file"], row["page"]) in already_verified` (src lines 218, 222):
membership of the key in the set of already verified `(file, page)` pairs. -/
def storeHasKey (store : List VerifiedInvoice) (file : String) (page : Nat) : Bool :=
  store.any (fun v => keyMatches v file page)

/-- Python `isinstance(row["json"], dict)` on an `Entry`'s result. -/
def isDict : Option Json → Bool
  | some (.obj _) => true
  | _ => false

/-! ## Extraction (`render_main_page`) -/

/-- Function `extract_text_from_image` (src lines 48-77) with the external call
and JSON parse (the whole `try` block) abstracted as an
`Except String` collaborator: an exception `e` yields the dict
`{"error": str(e)}`, success yields the parsed record. -/
def extract_text_from_image
    (callResult : Except String (List (String × Json))) :
    List (String × Json) :=
  match callResult with
  | .ok record => record
  | .error e => [("error", Json.str e)]

/-- Python `"error" in result` on the extraction result dict. -/
def hasErrorKey (fs : List (String × Json)) : Bool :=
  fs.any (fun pr => pr.1 == "error")

/-- The data of one page of the extraction loop: file name, page number,
the compressed image bytes the collaborators produced, and the outcome of
the external extraction call for this page. -/
structure PageInput where
  file : String
  page : Nat
  imageBytes : List Nat
  callResult : Except String (List (String × Json))

/-- The record appended at the start of one iteration of the extraction
loop (src lines 127-134): status `"Extracting..."`, no image, no result. -/
def initEntry (file : String) (page : Nat) : Entry :=
  { file := file, page := page, status := "Extracting...",
    image := none, json := none }

/-- One iteration of the extraction loop (src lines 137-147): run the
extraction, then set the status to `"Done"` when the result has no
`"error"` key and `"Failed"` otherwise, and store image and result. -/
def processPage (pi : PageInput) : Entry :=
  let result := extract_text_from_image pi.callResult
  { file := pi.file, page := pi.page,
    status := if hasErrorKey result then "Failed" else "Done",
    image := some pi.imageBytes,
    json := some (.obj result) }

/-- The whole extraction loop over every page of every uploaded file
(src lines 122-151): each page is processed in order and no page's
failure interrupts the batch. -/
def processBatch (pages : List PageInput) : List Entry :=
  pages.map processPage

/-! ## Procurement review and finance approval -/

/-- The records offered for verification by `render_procurement_review`
(src lines 220-223): the loop `continue`s unless the status is `"Done"`,
the result is a dict, and the key is not already verified. -/
def list_pending_review (data : List Entry) (store : List VerifiedInvoice) :
    List Entry :=
  data.filter (fun row =>
    row.status == "Done" && isDict row.json &&
    !storeHasKey store row.file row.page)

/-- The verify button's store write (src lines 239-244): append the new
verified entry to the loaded list and save it. -/
def procurement_verify_write (store : List VerifiedInvoice) (row : Entry)
    (edited : List (String × String)) : List VerifiedInvoice :=
  store ++ [{ file := row.file, page := row.page, fields := edited }]

/-- The invoices `render_finance_approval` offers for approval
(src lines 252-263): every entry of the loaded store, in store order. -/
def list_pending_approval (store : List VerifiedInvoice) :
    List VerifiedInvoice :=
  store

/-- The rebuild loop of `render_finance_approval` (src lines 258-271):
walk the store with a running index, dropping the entries whose approve
button was clicked and keeping the rest in order. -/
def financeKeep : List VerifiedInvoice → Nat → (Nat → Bool) →
    List VerifiedInvoice
  | [], _, _ => []
  | v :: rest, idx, approved =>
    if approved idx then financeKeep rest (idx + 1) approved
    else v :: financeKeep rest (idx + 1) approved

/-- One pass of `render_finance_approval` (src lines 258-275): the store
that is saved back is the loaded list minus the approved entries. -/
def render_finance_step (store : List VerifiedInvoice)
    (approved : Nat → Bool) : List VerifiedInvoice :=
  financeKeep store 0 approved

/-! ## Engine operations modelled from the spec -/

/-- The error taxonomy of spec §7 that the engine operations report. -/
inductive EngineError where
  | alreadyVerified
  | invalidTransition
  | notFound
deriving Repr, DecidableEq

/-- Modelled from the spec: `verify(record, edited_fields)` of §4.1 —
the engine operation does not exist in `src/` (the UI guard of
`render_procurement_review` plays its role).  Requires stage `Done` and
the key absent from the store, fails with `AlreadyVerifiedError` when
the key is already present, and writes through the store write of the
verify button before returning.  The second component is the store after
the call (unchanged on failure). -/
def engine_verify (r : Entry) (edited : List (String × String))
    (store : List VerifiedInvoice) :
    Except EngineError VerifiedInvoice × List VerifiedInvoice :=
  if storeHasKey store r.file r.page then
    (.error .alreadyVerified, store)
  else if r.status == "Done" then
    (.ok { file := r.file, page := r.page, fields := edited },
     procurement_verify_write store r edited)
  else
    (.error .invalidTransition, store)

/-- Modelled from the spec: `approve(key)` of §4.1 — the by-key engine
operation does not exist in `src/` (the finance screen deletes by button
index).  Requires the key to exist in the store, fails with
`NotFoundError` otherwise, and deletes the entry, returning the removed
value. -/
def engine_approve (store : List VerifiedInvoice) (file : String)
    (page : Nat) :
    Except EngineError (VerifiedInvoice × List VerifiedInvoice) :=
  match store.find? (fun v => keyMatches v file page) with
  | some v => .ok (v, store.filter (fun w => !keyMatches w file page))
  | none => .error .notFound

/-- The lifecycle stages of spec §4.1. -/
inductive Stage where
  | extracting
  | done
  | failed
  | verified
  | approved
deriving Repr, DecidableEq

/-- Position of a stage along
`Extracting -> {Done|Failed} -> Verified -> Approved`. -/
def stageRank : Stage → Nat
  | .extracting => 0
  | .done => 1
  | .failed => 1
  | .verified => 2
  | .approved => 3

/-- The engine operations that move a record through its lifecycle. -/
inductive EngineOp where
  | completeExtraction (ok : Bool)
  | verifyRecord
  | approveRecord
deriving Repr, DecidableEq

/-- Modelled from the spec: the stage transition function of §4.1 — the
state machine exists only in the design document (`src/` keeps status
strings and store membership).  Each operation either advances the stage
or reports the documented error and leaves it unchanged: completing
extraction requires `Extracting`; verify requires `Done`, reporting
`AlreadyVerifiedError` on a `Verified` record (its key is in the store)
and `InvalidTransitionError` otherwise; approve requires `Verified`,
reporting `NotFoundError` otherwise. -/
def engineStep : EngineOp → Stage → Option EngineError × Stage
  | .completeExtraction ok, .extracting =>
    (none, if ok then .done else .failed)
  | .completeExtraction _, s => (some .invalidTransition, s)
  | .verifyRecord, .done => (none, .verified)
  | .verifyRecord, .verified => (some .alreadyVerified, .verified)
  | .verifyRecord, s => (some .invalidTransition, s)
  | .approveRecord, .verified => (none, .approved)
  | .approveRecord, s => (some .notFound, s)

/-- Predicate `(store.map ...).Nodup`: every `(file, page)` key occurs at most once
in the store — the uniqueness invariant of spec §3. -/
def keysUnique (store : List VerifiedInvoice) : Prop :=
  (store.map (fun v => (v.file, v.page))).Nodup

/-- A store already holding the key `("a.pdf", 1)`. -/
def cexStore : List VerifiedInvoice :=
  [{ file := "a.pdf", page := 1, fields := [("F", "1")] }]

/-- A `Done` session record with the same key `("a.pdf", 1)`. -/
def cexRow : Entry :=
  { file := "a.pdf", page := 1, status := "Done", image := none,
    json := some (.obj []) }

/-- A record whose nested leaf `a.b` and top-level key `"a > b"` flatten
to the same path. -/
def collidingRecord : List (String × Json) :=
  [("a", Json.obj [("b", Json.str "1")]), ("a > b", Json.str "2")]

end InvoiceExtractor

namespace InvoiceExtractor

/-! ## Claim theorems -/

/-- C10: when the backing file does not exist, loading the store yields
the empty collection, the pending-approval listing is empty, and the
pending-review filter excludes no page for being already verified. -/
theorem missing_store_file_loads_empty :
    load_verified_invoices none = [] ∧
    list_pending_approval (load_verified_invoices none) = [] ∧
    ∀ data : List Entry,
      list_pending_review data (load_verified_invoices none) =
        data.filter (fun r => r.status == "Done" && isDict r.json) := by
  refine ⟨rfl, rfl, fun data => ?_⟩
  simp [list_pending_review, load_verified_invoices, storeHasKey]

/-- C1: a record whose key is already in the durable store is never
offered for re-verification by the procurement listing, and the engine's
verify rejects it with `AlreadyVerifiedError`, leaving the store without
a duplicate insert. -/
theorem verify_rejects_already_verified_key :
    (∀ (data : List Entry) (store : List VerifiedInvoice) (r : Entry),
        r ∈ list_pending_review data store →
        storeHasKey store r.file r.page = false) ∧
    (∀ (r : Entry) (edited : List (String × String))
        (store : List VerifiedInvoice),
        storeHasKey store r.file r.page = true →
        engine_verify r edited store = (.error .alreadyVerified, store)) := by
  constructor
  · intro data store r hr
    rcases List.mem_filter.mp hr with ⟨-, hcond⟩
    simp only [Bool.and_eq_true, Bool.not_eq_true'] at hcond
    exact hcond.2
  · intro r edited store h
    simp [engine_verify, h]

/-- Witness for C1 at a concrete listing and store. -/
theorem verify_rejects_already_verified_key_witness :
    storeHasKey [] cexRow.file cexRow.page = false ∧
    engine_verify cexRow [("F", "2")] cexStore =
      (.error .alreadyVerified, cexStore) := by
  constructor
  · exact verify_rejects_already_verified_key.1 [cexRow] [] cexRow
      (by simp [list_pending_review, cexRow, isDict, storeHasKey])
  · exact verify_rejects_already_verified_key.2 cexRow [("F", "2")] cexStore
      (by simp [storeHasKey, cexStore, cexRow, keyMatches])

/-- C5: a failed extraction is recorded on the page's record — stage
`Failed`, error text preserved verbatim — the batch maps over every page
without aborting, and an extraction that succeeds without an `"error"`
key yields stage `Done`. -/
theorem extraction_failure_recorded_not_raised :
    (∀ pages : List PageInput,
        (processBatch pages).length = pages.length ∧
        ∀ i : Nat, (processBatch pages)[i]? = (pages[i]?).map processPage) ∧
    (∀ (pi : PageInput) (e : String),
        pi.callResult = .error e →
        (processPage pi).status = "Failed" ∧
        (processPage pi).json = some (.obj [("error", Json.str e)])) ∧
    (∀ (pi : PageInput) (rec : List (String × Json)),
        pi.callResult = .ok rec → hasErrorKey rec = false →
        (processPage pi).status = "Done" ∧
        (processPage pi).json = some (.obj rec)) := by
  refine ⟨fun pages => ⟨by simp [processBatch], fun i => by simp [processBatch]⟩,
    fun pi e h => ?_, fun pi rec h hk => ?_⟩
  · simp [processPage, extract_text_from_image, h, hasErrorKey]
  · simp [processPage, extract_text_from_image, h, hk]

/-- Witness for C5 at one failing and one succeeding page. -/
theorem extraction_failure_recorded_not_raised_witness :
    (processPage ⟨"a.pdf", 2, [], .error "model timeout"⟩).status = "Failed" ∧
    (processPage ⟨"a.pdf", 2, [], .error "model timeout"⟩).json =
      some (.obj [("error", Json.str "model timeout")]) ∧
    (processPage ⟨"a.pdf", 1, [], .ok [("F", Json.str "1")]⟩).status = "Done" := by
  refine ⟨?_, ?_, ?_⟩
  · exact (extraction_failure_recorded_not_raised.2.1 _ "model timeout" rfl).1
  · exact (extraction_failure_recorded_not_raised.2.1 _ "model timeout" rfl).2
  · exact (extraction_failure_recorded_not_raised.2.2 _ [("F", Json.str "1")] rfl
      (by simp [hasErrorKey])).1

end InvoiceExtractor

namespace InvoiceExtractor

/-- C2: on any extraction run, the pending-review listing is exactly the
filter of the run's records by stage `Done` and key absent from the
store, in insertion order (it is a `List.filter` of the run data), and
no `Failed` record appears in it. -/
theorem pending_review_is_done_minus_store :
    ∀ (pages : List PageInput) (store : List VerifiedInvoice),
      list_pending_review (processBatch pages) store =
        (processBatch pages).filter
          (fun r => r.status == "Done" && !storeHasKey store r.file r.page) ∧
      ∀ r ∈ list_pending_review (processBatch pages) store,
        r.status ≠ "Failed" := by
  intro pages store
  constructor
  · refine List.filter_congr ?_
    intro r hr
    rcases List.mem_map.mp hr with ⟨pi, -, rfl⟩
    simp [processPage, isDict]
  · intro r hr
    rcases List.mem_filter.mp hr with ⟨-, hcond⟩
    simp only [Bool.and_eq_true, beq_iff_eq] at hcond
    rw [hcond.1.1]
    decide

/-- Witness for C2 on a two-page run (one `Done`, one `Failed`). -/
theorem pending_review_is_done_minus_store_witness :
    (processPage ⟨"invoice.pdf", 1, [], .ok [("F", Json.str "1")]⟩).status ≠
      "Failed" := by
  refine (pending_review_is_done_minus_store
    [⟨"invoice.pdf", 1, [], .ok [("F", Json.str "1")]⟩,
     ⟨"invoice.pdf", 2, [], .error "model timeout"⟩] []).2
    (processPage ⟨"invoice.pdf", 1, [], .ok [("F", Json.str "1")]⟩) ?_
  simp [list_pending_review, processBatch, processPage,
    extract_text_from_image, hasErrorKey, isDict, storeHasKey]

/-- C6 counterexample: the store write of the verify button is a bare
append, so writing a key that is already present yields two entries for
that key, not one. -/
theorem append_write_duplicates_present_key :
    ((procurement_verify_write cexStore cexRow [("F", "2")]).filter
        (fun w => keyMatches w "a.pdf" 1)).length = 2 := by
  decide

/-- C6 as amended: when the key is absent from the store — which the
pending-review guard ensures at every call site of the write — appending
the verified entry and listing the store yields exactly one entry for
that key, holding the written value; and a save/load round trip returns
the store unchanged. -/
theorem store_write_exactly_once_for_absent_key :
    (∀ (store : List VerifiedInvoice) (row : Entry)
        (edited : List (String × String)),
        storeHasKey store row.file row.page = false →
        (procurement_verify_write store row edited).filter
            (fun w => keyMatches w row.file row.page) =
          [{ file := row.file, page := row.page, fields := edited }]) ∧
    ∀ vs : List VerifiedInvoice,
      load_verified_invoices (save_verified_invoices vs) = vs := by
  constructor
  · intro store row edited h
    have hnone : ∀ v ∈ store, keyMatches v row.file row.page = false := by
      intro v hv
      by_contra hc
      have : storeHasKey store row.file row.page = true :=
        List.any_eq_true.mpr ⟨v, hv, by simpa using hc⟩
      simp [this] at h
    rw [procurement_verify_write, List.filter_append]
    rw [List.filter_eq_nil_iff.mpr (by intro a ha; simp [hnone a ha])]
    simp [keyMatches]
  · intro vs; rfl

/-- Witness for C6's amended theorem at a concrete store and row. -/
theorem store_write_exactly_once_for_absent_key_witness :
    (procurement_verify_write [] cexRow [("F", "2")]).filter
        (fun w => keyMatches w cexRow.file cexRow.page) =
      [{ file := cexRow.file, page := cexRow.page, fields := [("F", "2")] }] :=
  store_write_exactly_once_for_absent_key.1 [] cexRow [("F", "2")] (by decide)

/-- C4: along the spec's lifecycle every engine operation either advances
the stage rank or reports the documented error and leaves the stage (and,
for verify, the store) unchanged; verify on `Failed` reports
`InvalidTransitionError`, on `Verified` reports `AlreadyVerifiedError`;
the run records themselves only move from `"Extracting..."` to
`"Done"`/`"Failed"`. -/
theorem stage_transitions_forward_only :
    (∀ (op : EngineOp) (s : Stage),
        stageRank s ≤ stageRank (engineStep op s).2 ∧
        ((engineStep op s).1.isSome → (engineStep op s).2 = s)) ∧
    engineStep .verifyRecord .failed = (some .invalidTransition, .failed) ∧
    engineStep .verifyRecord .verified =
      (some .alreadyVerified, .verified) ∧
    (∀ (r : Entry) (edited : List (String × String))
        (store : List VerifiedInvoice),
        (r.status == "Done") = false →
        storeHasKey store r.file r.page = false →
        engine_verify r edited store = (.error .invalidTransition, store)) ∧
    ∀ pi : PageInput,
      (initEntry pi.file pi.page).status = "Extracting..." ∧
      ((processPage pi).status = "Done" ∨ (processPage pi).status = "Failed") := by
  refine ⟨fun op s => ?_, by decide, by decide, fun r edited store hs hk => ?_,
    fun pi => ⟨rfl, ?_⟩⟩
  · rcases op with ok | _ | _ <;> cases s <;> simp [engineStep, stageRank]
  · simp [engine_verify, hs, hk]
  · by_cases h : hasErrorKey (extract_text_from_image pi.callResult) = true
    · right; simp [processPage, h]
    · left; simp [processPage, h]

/-- Witness for C4 at a concrete operation, record and store. -/
theorem stage_transitions_forward_only_witness :
    (engineStep .verifyRecord .failed).2 = .failed ∧
    engine_verify { cexRow with status := "Failed" } [] [] =
      (.error .invalidTransition, []) := by
  constructor
  · exact (stage_transitions_forward_only.1 .verifyRecord .failed).2 (by decide)
  · exact stage_transitions_forward_only.2.2.2.1
      { cexRow with status := "Failed" } [] [] (by decide) (by decide)

end InvoiceExtractor

namespace InvoiceExtractor

/-- The finance rebuild keeps the whole store when no button at or past
the running index was clicked. -/
theorem financeKeep_of_no_approval :
    ∀ (store : List VerifiedInvoice) (n : Nat) (approved : Nat → Bool),
      (∀ j, n ≤ j → approved j = false) →
      financeKeep store n approved = store := by
  intro store
  induction store with
  | nil => intro n approved _; rfl
  | cons v rest ih =>
    intro n approved h
    simp only [financeKeep, h n le_rfl, Bool.false_eq_true, if_false]
    rw [ih (n + 1) approved fun j hj => h j (Nat.le_of_succ_le hj)]

/-- Approving exactly the button at index `i` (with running index `n`)
drops the `i`-th remaining entry. -/
theorem financeKeep_single_approval :
    ∀ (store : List VerifiedInvoice) (i n : Nat),
      financeKeep store n (fun j => j == n + i) = store.eraseIdx i := by
  intro store
  induction store with
  | nil => intro i n; simp [financeKeep]
  | cons v rest ih =>
    intro i n
    cases i with
    | zero =>
      simp only [financeKeep, Nat.add_zero, beq_self_eq_true, if_true,
        List.eraseIdx_cons_zero]
      exact financeKeep_of_no_approval rest (n + 1) _ fun j hj =>
        beq_eq_false_iff_ne.mpr (by omega)
    | succ i' =>
      have hne : (n == n + (i' + 1)) = false := beq_eq_false_iff_ne.mpr (by omega)
      simp only [financeKeep, hne, Bool.false_eq_true, if_false,
        List.eraseIdx_cons_succ]
      have hpred : (fun j => j == n + (i' + 1)) = (fun j => j == (n + 1) + i') := by
        funext j; congr 1; omega
      rw [hpred, ih i' (n + 1)]

/-- In a store with unique keys, the entry at index `i` carrying the key
is the one `find?` returns, and filtering the key away is `eraseIdx i`. -/
theorem find_filter_of_unique :
    ∀ (store : List VerifiedInvoice) (i : Nat) (v : VerifiedInvoice)
      (f : String) (p : Nat),
      keysUnique store → store[i]? = some v → keyMatches v f p = true →
      store.find? (fun w => keyMatches w f p) = some v ∧
      store.filter (fun w => !keyMatches w f p) = store.eraseIdx i := by
  intro store
  induction store with
  | nil => intro i v f p _ h; simp at h
  | cons w rest ih =>
    intro i v f p hu hget hkm
    have hu' : ((w.file, w.page) ∉ rest.map fun u => (u.file, u.page)) ∧
        keysUnique rest := by
      simpa [keysUnique, List.nodup_cons] using hu
    have keyEq : ∀ u : VerifiedInvoice, keyMatches u f p = true →
        (u.file, u.page) = (f, p) := by
      intro u h
      simp only [keyMatches, Bool.and_eq_true, beq_iff_eq] at h
      simp [h.1, h.2]
    cases i with
    | zero =>
      have hv : w = v := by simpa using hget
      subst hv
      refine ⟨by simp [List.find?_cons, hkm], ?_⟩
      rw [List.eraseIdx_cons_zero, List.filter_cons]
      simp only [hkm, Bool.not_true, Bool.false_eq_true, if_false]
      apply List.filter_eq_self.mpr
      intro u hu2
      have hum : keyMatches u f p = false := by
        by_contra hc
        have h1 := keyEq u (by simpa using hc)
        have h2 := keyEq w hkm
        exact hu'.1 (by rw [h2, ← h1]; exact List.mem_map_of_mem _ hu2)
      simp [hum]
    | succ i' =>
      have hget' : rest[i']? = some v := by simpa using hget
      have hvmem : v ∈ rest := by
        have hlt : i' < rest.length := by
          by_contra hge
          rw [List.getElem?_eq_none (by omega)] at hget'
          exact Option.noConfusion hget'
        rw [List.getElem?_eq_getElem hlt] at hget'
        exact (Option.some.injEq _ _ ▸ hget') ▸ List.getElem_mem hlt
      have hwm : keyMatches w f p = false := by
        by_contra hc
        have h1 := keyEq w (by simpa using hc)
        have h2 := keyEq v hkm
        exact hu'.1 (by rw [h1, ← h2]; exact List.mem_map_of_mem _ hvmem)
      obtain ⟨hf, hfl⟩ := ih i' v f p hu'.2 hget' hkm
      refine ⟨?_, ?_⟩
      · rw [List.find?_cons]
        simp [hwm, hf]
      · rw [List.filter_cons]
        simp [hwm, hfl, List.eraseIdx_cons_succ]

/-- C3: approving a key absent from the store reports `NotFoundError`
(and a pass with no click leaves the saved store unchanged); approving a
present key removes exactly its entry, returns it, and keeps every other
entry in order (`eraseIdx` of its position); and the verify write never
removes a store entry (approval is the only delete path). -/
theorem approve_deletes_exactly_the_approved_key :
    (∀ (store : List VerifiedInvoice) (f : String) (p : Nat),
        storeHasKey store f p = false →
        engine_approve store f p = .error .notFound) ∧
    (∀ store : List VerifiedInvoice,
        render_finance_step store (fun _ => false) = store) ∧
    (∀ (store : List VerifiedInvoice) (i : Nat) (v : VerifiedInvoice)
        (f : String) (p : Nat),
        keysUnique store → store[i]? = some v → keyMatches v f p = true →
        engine_approve store f p = .ok (v, store.eraseIdx i) ∧
        render_finance_step store (fun j => j == i) = store.eraseIdx i) ∧
    (∀ (r : Entry) (edited : List (String × String))
        (store : List VerifiedInvoice) (w : VerifiedInvoice),
        w ∈ store → w ∈ (engine_verify r edited store).2) := by
  refine ⟨fun store f p h => ?_, fun store => ?_,
    fun store i v f p hu hget hkm => ?_, fun r edited store w hw => ?_⟩
  · have hnone : store.find? (fun w => keyMatches w f p) = none := by
      apply List.find?_eq_none.mpr
      intro x hx hc
      have : storeHasKey store f p = true :=
        List.any_eq_true.mpr ⟨x, hx, hc⟩
      rw [this] at h
      exact Bool.noConfusion h
    simp [engine_approve, hnone]
  · exact financeKeep_of_no_approval store 0 _ fun _ _ => rfl
  · obtain ⟨hf, hfl⟩ := find_filter_of_unique store i v f p hu hget hkm
    refine ⟨by simp [engine_approve, hf, hfl], ?_⟩
    have hpred : (fun j => j == (0 : Nat) + i) = (fun j => j == i) := by
      funext j; congr 1; omega
    have := financeKeep_single_approval store i 0
    rw [hpred] at this
    exact this
  · by_cases h1 : storeHasKey store r.file r.page
    · simp [engine_verify, h1, hw]
    · by_cases h2 : (r.status == "Done") = true
      · simp only [engine_verify, h1, Bool.false_eq_true, if_false, h2, if_true]
        exact List.mem_append_left _ hw
      · simp [engine_verify, h1, h2, hw]

/-- Witness for C3 at a one-entry store. -/
theorem approve_deletes_exactly_the_approved_key_witness :
    engine_approve cexStore "a.pdf" 1 =
      .ok ({ file := "a.pdf", page := 1, fields := [("F", "1")] }, []) ∧
    engine_approve [] "a.pdf" 1 = .error .notFound ∧
    render_finance_step cexStore (fun _ => false) = cexStore := by
  refine ⟨?_, ?_, ?_⟩
  · have h := (approve_deletes_exactly_the_approved_key.2.2.1 cexStore 0
      { file := "a.pdf", page := 1, fields := [("F", "1")] } "a.pdf" 1
      (by simp [keysUnique, cexStore]) (by simp [cexStore]) (by decide)).1
    simpa [cexStore] using h
  · exact approve_deletes_exactly_the_approved_key.1 [] "a.pdf" 1 (by decide)
  · exact approve_deletes_exactly_the_approved_key.2.1 cexStore

end InvoiceExtractor

namespace InvoiceExtractor

/-- The accumulator loop over a sequence equals the indexed contributions
of its elements enumerated from the start index. -/
theorem flattenArr_eq_enumFrom :
    ∀ (xs : List Json) (path : String) (i : Nat),
      flattenArr xs path i =
        (List.enumFrom i xs).flatMap (fun p => seqContrib path p.1 p.2) := by
  intro xs
  induction xs with
  | nil => intro path i; simp [flattenArr]
  | cons x rest ih =>
    intro path i
    cases x <;> simp [flattenArr, seqContrib, List.enumFrom, ih]

/-- C7: flattening follows the contribution grammar of the spec — every
entry of an object contributes the flattening of its value rooted at the
joined path (`valContrib`: nested mappings recurse under their path,
sequences contribute `path[i]` per index recursing exactly on mapping
elements, scalars terminate as a pair), and joining a key under a
non-empty parent path is `parent ++ " > " ++ key`. -/
theorem flatten_contribution_grammar :
    (∀ (fs : List (String × Json)) (p : String),
        flattenObj fs p =
          fs.flatMap (fun kv => valContrib kv.2 (pyJoin p kv.1))) ∧
    ∀ p k : String, p ≠ "" → pyJoin p k = p ++ " > " ++ k := by
  constructor
  · intro fs p
    induction fs with
    | nil => simp [flattenObj]
    | cons kv rest ih =>
      obtain ⟨k, v⟩ := kv
      cases v <;>
        simp [flattenObj, valContrib, ih, flattenArr_eq_enumFrom, List.enum]
  · intro p k hp
    simp [pyJoin, hp]

/-- Witness for C7: the grammar at a concrete record and the separator
under a concrete non-empty parent path. -/
theorem flatten_contribution_grammar_witness :
    pyJoin "InvoiceDetails" "Number" = "InvoiceDetails > Number" ∧
    flattenObj [("a", Json.arr [Json.obj [("b", Json.str "1")]])] "" =
      [("a", Json.arr [Json.obj [("b", Json.str "1")]])].flatMap
        (fun kv => valContrib kv.2 (pyJoin "" kv.1)) := by
  exact ⟨flatten_contribution_grammar.2 "InvoiceDetails" "Number" (by decide),
    flatten_contribution_grammar.1 _ ""⟩

/-- C9: a leaf holding the empty string is emitted as a
`(path, "")` pair exactly like any other scalar, and the emitted path
sequence is unchanged when every scalar value is replaced by the empty
string — empty fields never shrink the path set. -/
theorem empty_leaves_emitted_not_omitted :
    (∀ (p k : String) (rest : List (String × Json)),
        flattenObj ((k, Json.str "") :: rest) p =
          (pyJoin p k, Json.str "") :: flattenObj rest p) ∧
    ∀ (fs : List (String × Json)) (p : String),
      (flattenObj (eraseObjVals fs) p).map Prod.fst =
        (flattenObj fs p).map Prod.fst := by
  constructor
  · intro p k rest
    simp [flattenObj]
  · intro fs p
    refine flattenObj.induct
      (fun fs p => (flattenObj (eraseObjVals fs) p).map Prod.fst =
        (flattenObj fs p).map Prod.fst)
      (fun xs path i => (flattenArr (eraseArrVals xs) path i).map Prod.fst =
        (flattenArr xs path i).map Prod.fst)
      ?_ ?_ ?_ ?_ fs p
    · intro p'
      simp [flattenObj, eraseObjVals]
    · intro k v rest parent new_key hmatch hrest
      cases v with
      | str s => simp [flattenObj, eraseObjVals, eraseVal, hrest]
      | arr xs =>
        have hm : (flattenArr (eraseArrVals xs) (pyJoin parent k) 0).map
            Prod.fst = (flattenArr xs (pyJoin parent k) 0).map Prod.fst :=
          hmatch
        simp only [eraseObjVals, eraseVal, flattenObj, List.map_append,
          hrest, hm]
      | obj gs =>
        have hm : (flattenObj (eraseObjVals gs) (pyJoin parent k)).map
            Prod.fst = (flattenObj gs (pyJoin parent k)).map Prod.fst :=
          hmatch
        simp only [eraseObjVals, eraseVal, flattenObj, List.map_append,
          hrest, hm]
    · intro path i
      simp [flattenArr, eraseArrVals]
    · intro item rest path i hmatch hrest
      cases item with
      | str s => simp [flattenArr, eraseArrVals, eraseVal, hrest]
      | arr xs => simp [flattenArr, eraseArrVals, eraseVal, hrest]
      | obj gs =>
        have hm : (flattenObj (eraseObjVals gs)
              (path ++ "[" ++ toString i ++ "]")).map Prod.fst =
            (flattenObj gs (path ++ "[" ++ toString i ++ "]")).map Prod.fst :=
          hmatch
        simp only [eraseArrVals, eraseVal, flattenArr, List.map_append,
          hrest, hm]

end InvoiceExtractor

namespace InvoiceExtractor

/-- Python `dict(items)` is the identity on an association list whose keys are
pairwise distinct. -/
theorem pyDict_of_nodup :
    ∀ (l acc : List (String × Json)),
      ((acc ++ l).map Prod.fst).Nodup →
      l.foldl dictInsert acc = acc ++ l := by
  intro l
  induction l with
  | nil => intro acc _; simp
  | cons x rest ih =>
    intro acc h
    have hx : x.1 ∉ acc.map Prod.fst := by
      intro hmem
      rw [List.map_append] at h
      rcases List.nodup_append.mp h with ⟨-, -, hdisj⟩
      exact hdisj hmem (by simp)
    have hany : acc.any (fun p => p.1 == x.1) = false := by
      apply List.any_eq_false.mpr
      intro p hp hc
      exact hx (by
        rw [show x.1 = p.1 from (beq_iff_eq.mp hc).symm]
        exact List.mem_map_of_mem Prod.fst hp)
    have hins : dictInsert acc x = acc ++ [x] := by
      simp [dictInsert, hany]
    have h' : (((acc ++ [x]) ++ rest).map Prod.fst).Nodup := by
      simpa [List.append_assoc] using h
    rw [List.foldl_cons, hins, ih (acc ++ [x]) h']
    simp

/-- Lookup by `find?` on an association list with pairwise-distinct keys
returns the member with that key. -/
theorem find_path_of_nodup :
    ∀ (l : List (String × Json)) (p : String) (v : Json),
      (l.map Prod.fst).Nodup → (p, v) ∈ l →
      l.find? (fun pr => pr.1 == p) = some (p, v) := by
  intro l
  induction l with
  | nil => intro p v _ h; simp at h
  | cons q rest ih =>
    intro p v hnd hm
    rw [List.map_cons] at hnd
    rcases List.nodup_cons.mp hnd with ⟨hq, hrest⟩
    rcases List.mem_cons.mp hm with heq | hmem
    · rw [List.find?_cons, ← heq]
      simp
    · have hne : (q.1 == p) = false := by
        apply beq_eq_false_iff_ne.mpr
        intro hqp
        exact hq (hqp ▸ List.mem_map_of_mem Prod.fst hmem)
      rw [List.find?_cons]
      simp [hne, ih p v hrest hmem]

/-- C8 counterexample: the nested leaf `a.b = "1"` of `collidingRecord`
flattens to the path `"a > b"`, which the top-level key `"a > b"` also
produces, and `dict(items)` keeps only the later value `"2"` — the leaf
value `"1"` is absent from `flatten(r)` and not recoverable by its path. -/
theorem flatten_collision_loses_leaf :
    ("a > b", Json.str "1") ∈ flattenObj collidingRecord "" ∧
    flatten_json collidingRecord = [("a > b", Json.str "2")] := by
  constructor
  · simp [collidingRecord, flattenObj, pyJoin]
  · simp [collidingRecord, flatten_json, flattenObj, pyJoin, pyDict,
      dictInsert]

/-- C8 as amended: for every record whose flattened paths are pairwise
distinct, every leaf value is recoverable by its flattened path from the
output of `flatten_json`. -/
theorem flatten_leaves_recoverable_of_distinct_paths :
    ∀ fs : List (String × Json),
      ((flattenObj fs "").map Prod.fst).Nodup →
      ∀ pv ∈ flattenObj fs "",
        lookupPath pv.1 (flatten_json fs) = some pv.2 := by
  intro fs h pv hm
  have hd : flatten_json fs = flattenObj fs "" := by
    have := pyDict_of_nodup (flattenObj fs "") [] (by simpa using h)
    simpa [flatten_json, pyDict] using this
  obtain ⟨a, b⟩ := pv
  rw [hd, lookupPath, find_path_of_nodup (flattenObj fs "") a b h hm]
  rfl

/-- Witness for C8's amended theorem on a one-leaf record. -/
theorem flatten_leaves_recoverable_of_distinct_paths_witness :
    lookupPath "a > b"
        (flatten_json [("a", Json.obj [("b", Json.str "1")])]) =
      some (Json.str "1") :=
  flatten_leaves_recoverable_of_distinct_paths
    [("a", Json.obj [("b", Json.str "1")])]
    (by simp [flattenObj, pyJoin])
    ("a > b", Json.str "1")
    (by simp [flattenObj, pyJoin])

end InvoiceExtractor
